import Mathlib

/-!
# Verification of the DS-AHP evidence-combination core

A shallow embedding of the evidence-combination engine of the DS-AHP
repository (`combination_rules.py`, `expert_manager.py`,
`belief_plausibility.py`) together with proofs settling the specification
claims about it.

Modelling conventions:
* Alternatives are opaque comparable labels, modelled as natural numbers
  (their linear order stands for the lexicographic order on the string
  labels used by the Python code).
* A Python `dict`/`defaultdict` keyed by `frozenset` with float values is
  modelled as an insertion-ordered association list
  `List (Finset ℕ × M)`; dict iteration order is insertion order, which
  the list preserves.
* Python floats are modelled as exact rationals `ℚ` (exact reals `ℝ` where
  `math.sqrt` is involved); decimal literals are read as exact values.
* A code path that prints an error marker and returns an empty dict is
  modelled as an `Option` result returning `none`.
-/

/-- The set of alternatives making up a focal element (`frozenset` in the
source). -/
abbrev FSet : Type := Finset ℕ

/-- A body of evidence: insertion-ordered association list from focal
elements to masses, embedding `Dict[frozenset, float]`. -/
abbrev BOE : Type := List (FSet × ℚ)

/-- The keys of an association list (the dict's key view). -/
def keyList {M : Type} (l : List (FSet × M)) : List FSet :=
  l.map Prod.fst

/-- `dict.get(k, 0)` — mass of a focal element, zero when absent. -/
def massOf {M : Type} [Zero M] : List (FSet × M) → FSet → M
  | [], _ => 0
  | e :: t, k => if e.1 = k then e.2 else massOf t k

/-- `defaultdict(float)` accumulation `d[k] += v`: add to the entry in
place if the key is present, else append a fresh entry. -/
def addMass {M : Type} [Add M] : List (FSet × M) → FSet → M → List (FSet × M)
  | [], k, v => [(k, v)]
  | e :: t, k, v => if e.1 = k then (k, e.2 + v) :: t else e :: addMass t k v

/-- dict assignment `d[k] = v`: replace the entry in place if the key is
present, else append a fresh entry. -/
def setMass {M : Type} : List (FSet × M) → FSet → M → List (FSet × M)
  | [], k, v => [(k, v)]
  | e :: t, k, v => if e.1 = k then (k, v) :: t else e :: setMass t k v

/-- Sum of all masses of a BOE (`sum(d.values())`). -/
def massSum {M : Type} [AddCommMonoid M] (l : List (FSet × M)) : M :=
  (l.map Prod.snd).sum

/-- The tolerance `1e-10` used by `combination_rules.py`. -/
def eps10 : ℚ := 1 / 10 ^ 10

/-- The tolerance `1e-6` of the conservation property. -/
def eps6 : ℚ := 1 / 10 ^ 6

/-- The nested pair loop `for s1, m1 in bpa1.items(): for s2, m2 in
bpa2.items()` as a list of pairs in iteration order. -/
def pairList (l1 l2 : BOE) : List ((FSet × ℚ) × (FSet × ℚ)) :=
  l1.flatMap fun e1 => l2.map fun e2 => (e1, e2)

/-- One step of the accumulation loop shared by `dempster_combine` and
`yager_combine`: an empty intersection feeds the conflict accumulator,
a non-empty one feeds the focal-element dict. -/
def combineStep (acc : BOE × ℚ) (p : (FSet × ℚ) × (FSet × ℚ)) : BOE × ℚ :=
  if p.1.1 ∩ p.2.1 = ∅ then (acc.1, acc.2 + p.1.2 * p.2.2)
  else (addMass acc.1 (p.1.1 ∩ p.2.1) (p.1.2 * p.2.2), acc.2)

/-- The accumulation loop of `dempster_combine`/`yager_combine`: returns
the dict of intersections and the conflict mass `K`. -/
def accumulate (l1 l2 : BOE) : BOE × ℚ :=
  (pairList l1 l2).foldl combineStep ([], 0)

/-- `CombinationRules.calculate_conflict`: `K = Σ_{B∩C=∅} m1(B)·m2(C)`. -/
def calculate_conflict (l1 l2 : BOE) : ℚ :=
  (pairList l1 l2).foldl
    (fun c p => if p.1.1 ∩ p.2.1 = ∅ then c + p.1.2 * p.2.2 else c) 0

/-- `CombinationRules.dempster_combine` over universe `Θ`: full-conflict
fallback at `K ≥ 1 - 1e-10`, otherwise normalisation by `1 - K`. -/
def dempster_combine (Θ : FSet) (l1 l2 : BOE) : BOE :=
  let a := accumulate l1 l2
  if 1 - eps10 ≤ a.2 then [(Θ, 1)]
  else a.1.map fun e => (e.1, e.2 / (1 - a.2))

/-- `CombinationRules.yager_combine` over universe `Θ`: conflict is added
to `Θ` (`combined[Θ] = combined.get(Θ, 0) + conflict`), the empty set is
assigned mass zero, and entries with mass `≤ 1e-10` other than `Θ` are
dropped by the final dict comprehension. -/
def yager_combine (Θ : FSet) (l1 l2 : BOE) : BOE :=
  let a := accumulate l1 l2
  let c2 := addMass a.1 Θ a.2
  let c3 := setMass c2 ∅ 0
  c3.filter fun e => decide (eps10 < e.2) || decide (e.1 = Θ)

/-- `CombinationRules.adaptive_combine` with threshold `X`: Dempster when
`K < X`, Yager otherwise. -/
def adaptive_combine (Θ : FSet) (X : ℚ) (l1 l2 : BOE) : BOE :=
  if calculate_conflict l1 l2 < X then dempster_combine Θ l1 l2
  else yager_combine Θ l1 l2

/-- `CombinationRules.dempster_combine_multiple`: the `len == 0` error
branch (prints `❌` and returns `{}`) is modelled as `none`; one source is
returned unchanged; otherwise a strict left fold. -/
def dempster_combine_multiple (Θ : FSet) : List BOE → Option BOE
  | [] => none
  | b :: bs => some (bs.foldl (dempster_combine Θ) b)

/-- `CombinationRules.yager_combine_multiple`, same shape as the Dempster
multi-source fold. -/
def yager_combine_multiple (Θ : FSet) : List BOE → Option BOE
  | [] => none
  | b :: bs => some (bs.foldl (yager_combine Θ) b)

/-- `CombinationRules.adaptive_combine_multiple`, same shape with the
adaptive rule at each step. -/
def adaptive_combine_multiple (Θ : FSet) (X : ℚ) : List BOE → Option BOE
  | [] => none
  | b :: bs => some (bs.foldl (adaptive_combine Θ X) b)

/-- `ExpertManager.calculate_discount_rates`: experts are `(name, weight)`
pairs in insertion order; `max(expert_weights.values())` over the
non-empty dict, the two error branches (`no experts`, `max weight = 0`,
both print and return `{}`) are modelled as `none`, otherwise each rate is
`weight / max_weight`. -/
def calculate_discount_rates (ws : List (ℕ × ℚ)) : Option (List (ℕ × ℚ)) :=
  match ws with
  | [] => none
  | w :: t =>
    let mx := (t.map Prod.snd).foldl max w.2
    if mx = 0 then none
    else some ((w :: t).map fun e => (e.1, e.2 / mx))

/-- `ExpertManager.compute_criterion_boe` for one expert and one
criterion.  `prefs` is the (already parsed) preference dict in insertion
order: pairs of a group of alternatives and its positive integer rank;
an unparseable group string becomes `∅` and is skipped when masses are
assigned (but still counts towards `d` and the denominator, as in the
source).  Masses live in `ℝ` because the source uses `math.sqrt(d)`. -/
noncomputable def compute_criterion_boe (Θ : FSet) (prefs : List (FSet × ℕ))
    (cpv : ℚ) : List (FSet × ℝ) :=
  if cpv = 0 ∨ prefs = [] then [(Θ, 1)]
  else
    let d : ℕ := prefs.length
    let S : ℝ := ((prefs.map fun p => (p.2 : ℝ) * (cpv : ℝ)).sum)
    let den : ℝ := S + Real.sqrt d
    if den = 0 then [(Θ, 1)]
    else
      let boe : List (FSet × ℝ) :=
        (prefs.filter fun p => p.1 ≠ ∅).map fun p => (p.1, (p.2 : ℝ) * (cpv : ℝ) / den)
      let boe2 := setMass boe Θ (Real.sqrt d / den)
      let total := massSum boe2
      if 1 / 10000 < |total - 1| then boe2.map fun e => (e.1, e.2 / total) else boe2

/-- `BeliefPlausibilityCalculator.calculate_belief_for_subset`: total mass
of focal elements contained in the target set. -/
def calculate_belief_for_subset (boe : BOE) (A : FSet) : ℚ :=
  ((boe.filter fun e => e.1 ⊆ A).map Prod.snd).sum

/-- `BeliefPlausibilityCalculator.calculate_plausibility_for_subset`:
total mass of focal elements meeting the target set (Python set
truthiness: non-empty intersection). -/
def calculate_plausibility_for_subset (boe : BOE) (A : FSet) : ℚ :=
  ((boe.filter fun e => e.1 ∩ A ≠ ∅).map Prod.snd).sum

/-- `itertools.combinations(l, k)`: all `k`-element subsequences of `l`,
in the order itertools emits them. -/
def combinations {α : Type} : ℕ → List α → List (List α)
  | 0, _ => [[]]
  | _ + 1, [] => []
  | k + 1, x :: xs => (combinations k xs).map (x :: ·) ++ combinations (k + 1) xs

/-- `BeliefPlausibilityCalculator.generate_all_subsets`: subsets of every
size from 1 to `n` (`for size in range(1, n + 1)`). -/
def generate_all_subsets (alts : List ℕ) : List (List ℕ) :=
  (List.range alts.length).flatMap fun size => combinations (size + 1) alts

/-- `BeliefPlausibilityCalculator.calculate_belief_plausibility`: for
every generated subset, record `(Belief, Plausibility)`; this is the
`intervals` dict keyed by `frozenset(subset)` in insertion order. -/
def calculate_belief_plausibility (boe : BOE) (alts : List ℕ) :
    List (FSet × (ℚ × ℚ)) :=
  (generate_all_subsets alts).map fun s =>
    (s.toFinset,
      (calculate_belief_for_subset boe s.toFinset,
       calculate_plausibility_for_subset boe s.toFinset))

/-- The score loop of `BeliefPlausibilityCalculator.rank_alternatives`:
iterate over `sorted(self.all_alternatives)` (the sorted de-duplicated
alternative labels) and record `γ·Bel({alt}) + (1−γ)·Pl({alt})`.  All
singletons are present in `self.intervals` (they are generated by
`calculate_belief_plausibility` over the same alternatives), so the
membership guard in the loop always passes and the stored values equal
the functions below. -/
def scoreList (alts : List ℕ) (boe : BOE) (γ : ℚ) : List (ℕ × ℚ) :=
  (alts.toFinset.sort (· ≤ ·)).map fun a =>
    (a, γ * calculate_belief_for_subset boe {a}
        + (1 - γ) * calculate_plausibility_for_subset boe {a})

/-- `rank_alternatives`: `sorted(scores.items(), key=lambda x: x[1],
reverse=True)` — a stable sort putting higher scores first; ties keep the
order of `scores`, which was built over the sorted alternative labels. -/
def rank_alternatives (alts : List ℕ) (boe : BOE) (γ : ℚ) : List (ℕ × ℚ) :=
  (scoreList alts boe γ).mergeSort fun x y => decide (y.2 ≤ x.2)

/-- Universe of 14 alternatives used by the conservation counterexample. -/
def theta14 : FSet := Finset.range 14

/-- The `i`-th non-empty proper subset of `theta14` (binary encoding of
`i + 1`), used to build a BOE with many tiny focal elements. -/
def enc (i : ℕ) : FSet := (Finset.range 14).filter fun b => (i + 1).testBit b

/-- A valid BOE (masses in `[0,1]` summing to 1) with 10001 focal elements
of mass exactly `1e-10` besides `Θ`. -/
def bigBOE : BOE :=
  (theta14, 1 - 10001 / 10 ^ 10) :: (List.range 10001).map fun i => (enc i, 1 / 10 ^ 10)

/-- The vacuous BOE `{Θ: 1}` over `theta14`. -/
def oneTheta : BOE := [(theta14, 1)]

/-- Sum of the products `m1(B)·m2(C)` over a list of focal-element pairs. -/
def prodSum (ps : List ((FSet × ℚ) × (FSet × ℚ))) : ℚ :=
  (ps.map fun p => p.1.2 * p.2.2).sum
theorem keyList_nil {M : Type} : keyList ([] : List (FSet × M)) = [] := rfl

theorem keyList_cons {M : Type} (e : FSet × M) (l : List (FSet × M)) :
    keyList (e :: l) = e.1 :: keyList l := rfl

theorem keyList_append {M : Type} (l1 l2 : List (FSet × M)) :
    keyList (l1 ++ l2) = keyList l1 ++ keyList l2 := by
  simp [keyList]

theorem massSum_nil {M : Type} [AddCommMonoid M] : massSum ([] : List (FSet × M)) = 0 := rfl

theorem massSum_cons {M : Type} [AddCommMonoid M] (e : FSet × M) (l : List (FSet × M)) :
    massSum (e :: l) = e.2 + massSum l := by
  simp [massSum]

theorem massSum_append {M : Type} [AddCommMonoid M] (l1 l2 : List (FSet × M)) :
    massSum (l1 ++ l2) = massSum l1 + massSum l2 := by
  simp [massSum]

theorem massSum_addMass {M : Type} [AddCommMonoid M] (l : List (FSet × M)) (k : FSet) (v : M) :
    massSum (addMass l k v) = massSum l + v := by
  induction l with
  | nil => simp [addMass, massSum]
  | cons e t ih =>
    by_cases h : e.1 = k
    · simp [addMass, h, massSum_cons, add_assoc, add_comm v (massSum t)]
    · simp [addMass, h, massSum_cons, ih, add_assoc]

theorem mem_keyList_addMass {M : Type} [Add M] {l : List (FSet × M)} (k a : FSet) (v : M) :
    a ∈ keyList (addMass l k v) ↔ a = k ∨ a ∈ keyList l := by
  induction l with
  | nil => simp [addMass, keyList_cons, keyList_nil]
  | cons e t ih =>
    by_cases he : e.1 = k
    · simp only [addMass, he, if_pos, keyList_cons, List.mem_cons, he]
      tauto
    · simp only [addMass, he, if_neg, not_false_iff, keyList_cons, List.mem_cons, ih]
      tauto

theorem length_addMass {M : Type} [Add M] (l : List (FSet × M)) (k : FSet) (v : M) :
    (addMass l k v).length ≤ l.length + 1 := by
  induction l with
  | nil => simp [addMass]
  | cons e t ih =>
    by_cases he : e.1 = k
    · simp [addMass, he]
    · simpa [addMass, he] using Nat.succ_le_succ ih

theorem mass_nonneg_addMass {l : BOE} {k : FSet} {v : ℚ}
    (hl : ∀ e ∈ l, 0 ≤ e.2) (hv : 0 ≤ v) : ∀ e ∈ addMass l k v, 0 ≤ e.2 := by
  induction l with
  | nil =>
    intro e he
    simp only [addMass, List.mem_singleton] at he
    simpa [he] using hv
  | cons a t ih =>
    intro e he
    by_cases ha : a.1 = k
    · simp only [addMass, ha, if_pos, List.mem_cons] at he
      rcases he with rfl | he
      · exact add_nonneg (hl a (by simp)) hv
      · exact hl e (by simp [he])
    · simp only [addMass, ha, if_neg, not_false_iff, List.mem_cons] at he
      rcases he with rfl | he
      · exact hl e (by simp)
      · exact ih (fun x hx => hl x (by simp [hx])) e he

theorem addMass_of_not_mem {M : Type} [Add M] {l : List (FSet × M)} {k : FSet} (v : M)
    (h : k ∉ keyList l) : addMass l k v = l ++ [(k, v)] := by
  induction l with
  | nil => simp [addMass]
  | cons e t ih =>
    have he : e.1 ≠ k := fun hk => h (by simp [keyList_cons, hk])
    have ht : k ∉ keyList t := fun hk => h (by simp [keyList_cons, hk])
    simp [addMass, he, ih ht]

theorem setMass_of_not_mem {M : Type} {l : List (FSet × M)} {k : FSet} (v : M)
    (h : k ∉ keyList l) : setMass l k v = l ++ [(k, v)] := by
  induction l with
  | nil => simp [setMass]
  | cons e t ih =>
    have he : e.1 ≠ k := fun hk => h (by simp [keyList_cons, hk])
    have ht : k ∉ keyList t := fun hk => h (by simp [keyList_cons, hk])
    simp [setMass, he, ih ht]

theorem prodSum_nil : prodSum [] = 0 := rfl

theorem prodSum_cons (p : (FSet × ℚ) × (FSet × ℚ)) (ps : List ((FSet × ℚ) × (FSet × ℚ))) :
    prodSum (p :: ps) = p.1.2 * p.2.2 + prodSum ps := by
  simp [prodSum]

theorem foldl_combineStep_sum (ps : List ((FSet × ℚ) × (FSet × ℚ))) :
    ∀ acc : BOE × ℚ,
      massSum (ps.foldl combineStep acc).1 + (ps.foldl combineStep acc).2 =
        massSum acc.1 + acc.2 + prodSum ps := by
  induction ps with
  | nil => intro acc; simp [prodSum_nil]
  | cons p t ih =>
    intro acc
    rw [List.foldl_cons, ih, prodSum_cons]
    unfold combineStep
    by_cases h : p.1.1 ∩ p.2.1 = ∅
    · simp only [h, if_pos]
      ring
    · simp only [h, if_neg, not_false_iff, massSum_addMass]
      ring

theorem foldl_combineStep_keys (ps : List ((FSet × ℚ) × (FSet × ℚ))) :
    ∀ acc : BOE × ℚ, ∀ k ∈ keyList (ps.foldl combineStep acc).1,
      k ∈ keyList acc.1 ∨ k ≠ ∅ := by
  induction ps with
  | nil => intro acc k hk; exact Or.inl hk
  | cons p t ih =>
    intro acc k hk
    rw [List.foldl_cons] at hk
    rcases ih (combineStep acc p) k hk with h1 | h1
    · unfold combineStep at h1
      by_cases h : p.1.1 ∩ p.2.1 = ∅
      · simp only [h, if_pos] at h1
        exact Or.inl h1
      · simp only [h, if_neg, not_false_iff] at h1
        rcases (mem_keyList_addMass _ _ _).mp h1 with rfl | h2
        · exact Or.inr h
        · exact Or.inl h2
    · exact Or.inr h1

theorem foldl_combineStep_length (ps : List ((FSet × ℚ) × (FSet × ℚ))) :
    ∀ acc : BOE × ℚ,
      (ps.foldl combineStep acc).1.length ≤ acc.1.length + ps.length := by
  induction ps with
  | nil => intro acc; simp
  | cons p t ih =>
    intro acc
    rw [List.foldl_cons]
    refine le_trans (ih (combineStep acc p)) ?_
    unfold combineStep
    by_cases h : p.1.1 ∩ p.2.1 = ∅
    · simp only [h, if_pos, List.length_cons]
      omega
    · simp only [h, if_neg, not_false_iff, List.length_cons]
      have := length_addMass acc.1 (p.1.1 ∩ p.2.1) (p.1.2 * p.2.2)
      omega

theorem foldl_combineStep_nonneg (ps : List ((FSet × ℚ) × (FSet × ℚ)))
    (hps : ∀ p ∈ ps, 0 ≤ p.1.2 * p.2.2) :
    ∀ acc : BOE × ℚ, (∀ e ∈ acc.1, 0 ≤ e.2) → 0 ≤ acc.2 →
      (∀ e ∈ (ps.foldl combineStep acc).1, 0 ≤ e.2) ∧
        0 ≤ (ps.foldl combineStep acc).2 := by
  induction ps with
  | nil => intro acc h1 h2; exact ⟨h1, h2⟩
  | cons p t ih =>
    intro acc h1 h2
    rw [List.foldl_cons]
    have hp : 0 ≤ p.1.2 * p.2.2 := hps p (by simp)
    have ht : ∀ q ∈ t, 0 ≤ q.1.2 * q.2.2 := fun q hq => hps q (by simp [hq])
    unfold combineStep
    by_cases h : p.1.1 ∩ p.2.1 = ∅
    · simp only [h, if_pos]
      exact ih ht _ h1 (add_nonneg h2 hp)
    · simp only [h, if_neg, not_false_iff]
      exact ih ht _ (mass_nonneg_addMass h1 hp) h2

theorem foldl_combineStep_conflict (ps : List ((FSet × ℚ) × (FSet × ℚ))) :
    ∀ (acc : BOE × ℚ),
      (ps.foldl combineStep acc).2 =
        ps.foldl (fun c p => if p.1.1 ∩ p.2.1 = ∅ then c + p.1.2 * p.2.2 else c) acc.2 := by
  induction ps with
  | nil => intro acc; rfl
  | cons p t ih =>
    intro acc
    rw [List.foldl_cons, List.foldl_cons, ih]
    unfold combineStep
    by_cases h : p.1.1 ∩ p.2.1 = ∅
    · simp [h]
    · simp [h]

theorem calculate_conflict_eq_accumulate (l1 l2 : BOE) :
    calculate_conflict l1 l2 = (accumulate l1 l2).2 := by
  rw [calculate_conflict, accumulate, foldl_combineStep_conflict]

theorem prodSum_map_pair (e : FSet × ℚ) (l2 : BOE) :
    prodSum (l2.map fun e2 => (e, e2)) = e.2 * massSum l2 := by
  induction l2 with
  | nil => simp [prodSum, massSum]
  | cons f u ihu =>
    simp only [List.map_cons, prodSum_cons, massSum_cons, ihu]
    ring

theorem prodSum_pairList (l1 l2 : BOE) :
    prodSum (pairList l1 l2) = massSum l1 * massSum l2 := by
  induction l1 with
  | nil => simp [pairList, prodSum, massSum]
  | cons e t ih =>
    have hmap : prodSum (l2.map fun e2 => (e, e2)) = e.2 * massSum l2 :=
      prodSum_map_pair e l2
    simp only [pairList, List.flatMap_cons] at ih ⊢
    rw [prodSum, List.map_append, List.sum_append, massSum_cons]
    rw [← prodSum, ← prodSum, hmap, ih]
    ring

theorem massSum_accumulate (l1 l2 : BOE) :
    massSum (accumulate l1 l2).1 + (accumulate l1 l2).2 = massSum l1 * massSum l2 := by
  rw [accumulate, foldl_combineStep_sum, ← prodSum_pairList l1 l2]
  simp [massSum_nil]

theorem accumulate_keys_ne_empty (l1 l2 : BOE) :
    ∀ k ∈ keyList (accumulate l1 l2).1, k ≠ ∅ := by
  intro k hk
  rcases foldl_combineStep_keys (pairList l1 l2) ([], 0) k hk with h | h
  · simp [keyList_nil] at h
  · exact h

theorem length_pairList (l1 l2 : BOE) :
    (pairList l1 l2).length = l1.length * l2.length := by
  induction l1 with
  | nil => simp [pairList]
  | cons e t ih =>
    simp only [pairList, List.flatMap_cons, List.length_append, List.length_map,
      List.length_cons] at ih ⊢
    rw [ih]
    ring

theorem length_accumulate (l1 l2 : BOE) :
    (accumulate l1 l2).1.length ≤ l1.length * l2.length := by
  have := foldl_combineStep_length (pairList l1 l2) ([], 0)
  rw [length_pairList] at this
  simpa using this

theorem accumulate_nonneg (l1 l2 : BOE)
    (h1 : ∀ e ∈ l1, 0 ≤ e.2) (h2 : ∀ e ∈ l2, 0 ≤ e.2) :
    (∀ e ∈ (accumulate l1 l2).1, 0 ≤ e.2) ∧ 0 ≤ (accumulate l1 l2).2 := by
  refine foldl_combineStep_nonneg _ ?_ _ (by simp) le_rfl
  intro p hp
  rcases List.mem_flatMap.mp hp with ⟨e1, he1, hmem⟩
  rcases List.mem_map.mp hmem with ⟨e2, he2, rfl⟩
  exact mul_nonneg (h1 e1 he1) (h2 e2 he2)

/-- Claim C2: whenever the conflict coefficient satisfies
`K ≥ 1 - ε` (with `ε = 1e-10`, full or near-full conflict),
`dempster_combine` returns the BOE `{Θ: 1.0}` instead of dividing by the
vanishing normaliser. -/
theorem claim_C2_full_conflict_fallback (Θ : FSet) (l1 l2 : BOE)
    (h : 1 - eps10 ≤ calculate_conflict l1 l2) :
    dempster_combine Θ l1 l2 = [(Θ, 1)] := by
  rw [calculate_conflict_eq_accumulate] at h
  unfold dempster_combine
  simp [h]

/-- Witness for C2 at the spec's own instance: `m1 = {{A}: 1.0}`,
`m2 = {{B}: 1.0}` over universe `{A, B}`; the conflict is `1 ≥ 1 - ε` and
the combination returns `{Θ: 1.0}`. -/
theorem claim_C2_full_conflict_fallback_witness :
    1 - eps10 ≤ calculate_conflict [({0}, 1)] [({1}, 1)] ∧
      dempster_combine {0, 1} [({0}, 1)] [({1}, 1)] = [({0, 1}, 1)] := by
  have e1 : ({0} ∩ {1} : Finset ℕ) = ∅ := by decide
  have hk : calculate_conflict [({0}, 1)] [({1}, 1)] = 1 := by
    simp only [calculate_conflict, pairList, List.flatMap_cons, List.map_cons,
      List.map_nil, List.flatMap_nil, List.append_nil, List.foldl_cons, List.foldl_nil, e1]
    norm_num
  have hle : 1 - eps10 ≤ calculate_conflict [({0}, 1)] [({1}, 1)] := by
    rw [hk]; norm_num [eps10]
  exact ⟨hle, claim_C2_full_conflict_fallback {0, 1} [({0}, 1)] [({1}, 1)] hle⟩

/-- Claim C3: the spec's worked example.  Universe `{A, B} = {0, 1}`,
`m1 = {{A}: 0.6, Θ: 0.4}`, `m2 = {{B}: 0.5, Θ: 0.5}`: the conflict is
`K = 0.30`, Dempster returns `{A} ↦ 0.30/0.7, {B} ↦ 0.20/0.7,
Θ ↦ 0.20/0.7` (summing to 1) and Yager returns `{A} ↦ 0.30,
{B} ↦ 0.20, Θ ↦ 0.50` (summing to 1). -/
theorem claim_C3_worked_example :
    calculate_conflict [({0}, 6/10), ({0, 1}, 4/10)] [({1}, 5/10), ({0, 1}, 5/10)] = 30/100 ∧
    dempster_combine {0, 1} [({0}, 6/10), ({0, 1}, 4/10)] [({1}, 5/10), ({0, 1}, 5/10)] =
      [({0}, (30/100) / (7/10)), ({1}, (20/100) / (7/10)), ({0, 1}, (20/100) / (7/10))] ∧
    massSum (dempster_combine {0, 1} [({0}, 6/10), ({0, 1}, 4/10)]
      [({1}, 5/10), ({0, 1}, 5/10)]) = 1 ∧
    yager_combine {0, 1} [({0}, 6/10), ({0, 1}, 4/10)] [({1}, 5/10), ({0, 1}, 5/10)] =
      [({0}, 30/100), ({1}, 20/100), ({0, 1}, 50/100)] ∧
    massSum (yager_combine {0, 1} [({0}, 6/10), ({0, 1}, 4/10)]
      [({1}, 5/10), ({0, 1}, 5/10)]) = 1 := by
  have e1 : ({0} ∩ {1} : Finset ℕ) = ∅ := by decide
  have e2 : ({0} ∩ {0, 1} : Finset ℕ) = {0} := by decide
  have e3 : ({0, 1} ∩ {1} : Finset ℕ) = {1} := by decide
  have e4 : ({0, 1} ∩ {0, 1} : Finset ℕ) = {0, 1} := by decide
  have n1 : ({0} : Finset ℕ) ≠ ∅ := by decide
  have n2 : ({1} : Finset ℕ) ≠ ∅ := by decide
  have n3 : ({0, 1} : Finset ℕ) ≠ ∅ := by decide
  have d1 : ({0} : Finset ℕ) ≠ {1} := by decide
  have d2 : ({0} : Finset ℕ) ≠ {0, 1} := by decide
  have d3 : ({1} : Finset ℕ) ≠ {0, 1} := by decide
  have hacc : accumulate [({0}, 6/10), ({0, 1}, 4/10)] [({1}, 5/10), ({0, 1}, 5/10)] =
      ([({0}, 3/10), ({1}, 2/10), ({0, 1}, 2/10)], 3/10) := by
    simp only [accumulate, pairList, List.flatMap_cons, List.map_cons, List.map_nil,
      List.flatMap_nil, List.append_nil, List.cons_append, List.nil_append,
      List.foldl_cons, List.foldl_nil, combineStep, e1, e2, e3, e4]
    norm_num [n1, n2, n3, d1, d2, d3, addMass]
  have hacc1 : (accumulate [({0}, 6/10), ({0, 1}, 4/10)] [({1}, 5/10), ({0, 1}, 5/10)]).1 =
      [({0}, 3/10), ({1}, 2/10), ({0, 1}, 2/10)] := by rw [hacc]
  have hacc2 : (accumulate [({0}, 6/10), ({0, 1}, 4/10)] [({1}, 5/10), ({0, 1}, 5/10)]).2 =
      3/10 := by rw [hacc]
  refine ⟨?_, ?_, ?_, ?_, ?_⟩
  · rw [calculate_conflict_eq_accumulate, hacc2]
    norm_num
  · rw [dempster_combine, hacc]
    norm_num [eps10]
  · rw [dempster_combine, hacc]
    norm_num [eps10, massSum]
  · rw [yager_combine, hacc1, hacc2]
    norm_num [addMass, setMass, d2, d3, n1, n2, n3, Ne.symm n1, Ne.symm n2, Ne.symm n3,
      List.filter_cons, List.filter_nil, Bool.or_eq_true, decide_eq_true_eq, eps10]
  · rw [yager_combine, hacc1, hacc2]
    norm_num [addMass, setMass, d2, d3, n1, n2, n3, Ne.symm n1, Ne.symm n2, Ne.symm n3,
      List.filter_cons, List.filter_nil, Bool.or_eq_true, decide_eq_true_eq, eps10, massSum]

/-- Claim C9: every multi-source combination (Dempster, Yager, adaptive)
signals an error (the `❌`-and-return-`{}` branch, modelled as `none`)
when given zero BOEs, before any combination work, and returns the single
BOE unchanged when given exactly one. -/
theorem claim_C9_multi_source_edge_cases (Θ : FSet) (X : ℚ) (b : BOE) :
    dempster_combine_multiple Θ [] = none ∧
    yager_combine_multiple Θ [] = none ∧
    adaptive_combine_multiple Θ X [] = none ∧
    dempster_combine_multiple Θ [b] = some b ∧
    yager_combine_multiple Θ [b] = some b ∧
    adaptive_combine_multiple Θ X [b] = some b :=
  ⟨rfl, rfl, rfl, rfl, rfl, rfl⟩

/-- Claim C10: over a non-empty universe, the BOE returned by
`yager_combine` always contains `Θ` as a key (even when its mass is 0),
never contains the empty set, and every key other than `Θ` carries mass
strictly greater than `1e-10`. -/
theorem claim_C10_yager_output_shape (Θ : FSet) (l1 l2 : BOE) (hΘ : Θ.Nonempty) :
    Θ ∈ keyList (yager_combine Θ l1 l2) ∧
    ∅ ∉ keyList (yager_combine Θ l1 l2) ∧
    ∀ e ∈ yager_combine Θ l1 l2, e.1 ≠ Θ → eps10 < e.2 := by
  have hΘne : Θ ≠ ∅ := Finset.nonempty_iff_ne_empty.mp hΘ
  set a := accumulate l1 l2 with ha
  set c2 := addMass a.1 Θ a.2 with hc2
  have hΘc2 : Θ ∈ keyList c2 := (mem_keyList_addMass Θ Θ a.2).mpr (Or.inl rfl)
  have hec2 : (∅ : FSet) ∉ keyList c2 := by
    intro h
    rcases (mem_keyList_addMass Θ ∅ a.2).mp h with h1 | h1
    · exact hΘne h1.symm
    · exact accumulate_keys_ne_empty l1 l2 ∅ h1 rfl
  have hc3 : setMass c2 ∅ 0 = c2 ++ [(∅, 0)] := setMass_of_not_mem 0 hec2
  have hy : yager_combine Θ l1 l2 =
      (c2 ++ [(∅, 0)]).filter fun e => decide (eps10 < e.2) || decide (e.1 = Θ) := by
    rw [yager_combine, ← ha, ← hc2, hc3]
  refine ⟨?_, ?_, ?_⟩
  · rcases List.mem_map.mp hΘc2 with ⟨e, he, hek⟩
    have hmem : e ∈ c2 ++ [(∅, 0)] := List.mem_append_left _ he
    have hp : (decide (eps10 < e.2) || decide (e.1 = Θ)) = true := by
      simp [hek]
    rw [hy]
    exact List.mem_map.mpr ⟨e, List.mem_filter.mpr ⟨hmem, hp⟩, hek⟩
  · intro h
    rw [hy] at h
    rcases List.mem_map.mp h with ⟨e, he, hek⟩
    have he1 := (List.mem_filter.mp he).1
    have he2 := (List.mem_filter.mp he).2
    simp only [Bool.or_eq_true, decide_eq_true_eq] at he2
    rcases he2 with h2 | h2
    · rcases List.mem_append.mp he1 with h3 | h3
      · exact hec2 (List.mem_map.mpr ⟨e, h3, hek⟩)
      · have : e = ((∅ : FSet), (0 : ℚ)) := by simpa using h3
        rw [this] at h2
        norm_num [eps10] at h2
    · exact hΘne (hek ▸ h2).symm
  · intro e he hne
    rw [hy] at he
    have he2 := (List.mem_filter.mp he).2
    simp only [Bool.or_eq_true, decide_eq_true_eq] at he2
    rcases he2 with h2 | h2
    · exact h2
    · exact absurd h2 hne

/-- Witness for C10 over universe `{0, 1}` with the two singleton BOEs:
the hypothesis (non-empty universe) holds and the three output-shape
conclusions follow from the theorem. -/
theorem claim_C10_yager_output_shape_witness :
    (({0, 1} : FSet).Nonempty) ∧
    ({0, 1} : FSet) ∈ keyList (yager_combine {0, 1} [({0}, 1)] [({1}, 1)]) ∧
    (∅ : FSet) ∉ keyList (yager_combine {0, 1} [({0}, 1)] [({1}, 1)]) ∧
    ∀ e ∈ yager_combine {0, 1} [({0}, 1)] [({1}, 1)], e.1 ≠ {0, 1} → eps10 < e.2 := by
  have h : (({0, 1} : FSet)).Nonempty := ⟨0, by decide⟩
  have := claim_C10_yager_output_shape {0, 1} [({0}, 1)] [({1}, 1)] h
  exact ⟨h, this.1, this.2.1, this.2.2⟩

theorem massSum_filter_split (p : FSet × ℚ → Bool) (l : BOE) :
    massSum (l.filter p) + massSum (l.filter fun e => !(p e)) = massSum l := by
  induction l with
  | nil => simp [massSum]
  | cons e t ih =>
    by_cases h : p e
    · simp only [List.filter_cons, h, Bool.not_true, if_pos, if_neg, Bool.false_eq_true,
        not_false_iff, massSum_cons]
      linarith
    · simp only [List.filter_cons, h, Bool.not_false, if_neg, if_pos, Bool.false_eq_true,
        not_false_iff, massSum_cons]
      linarith

theorem massSum_nonneg_of (l : BOE) (h : ∀ e ∈ l, 0 ≤ e.2) : 0 ≤ massSum l := by
  induction l with
  | nil => simp [massSum]
  | cons e t ih =>
    rw [massSum_cons]
    exact add_nonneg (h e (by simp)) (ih fun x hx => h x (by simp [hx]))

theorem massSum_le_length_mul (l : BOE) (c : ℚ) (h : ∀ e ∈ l, e.2 ≤ c) :
    massSum l ≤ l.length * c := by
  induction l with
  | nil => simp [massSum]
  | cons e t ih =>
    rw [massSum_cons, List.length_cons]
    have h1 : e.2 ≤ c := h e (by simp)
    have h2 : massSum t ≤ t.length * c := ih fun x hx => h x (by simp [hx])
    push_cast
    nlinarith

theorem massSum_map_div (l : BOE) (c : ℚ) :
    massSum (l.map fun e => (e.1, e.2 / c)) = massSum l / c := by
  induction l with
  | nil => simp [massSum]
  | cons e t ih => simp [massSum_cons, ih, add_div]

/-- Claim C1 (amended): for valid BOEs (non-negative masses summing to 1)
Dempster-combination conserves mass exactly whenever `K < 1`, and
Yager-combination conserves mass within `1e-6` provided the universe is
non-empty and the product of the two focal-element counts is at most
`9998` (in general the Yager deficit is the mass silently dropped by the
`> 1e-10` filter, bounded by `(|m1|·|m2| + 2)·1e-10`). -/
theorem claim_C1_conservation_amended (Θ : FSet) (l1 l2 : BOE) (hΘ : Θ.Nonempty)
    (h1 : massSum l1 = 1) (h2 : massSum l2 = 1)
    (hn1 : ∀ e ∈ l1, 0 ≤ e.2) (hn2 : ∀ e ∈ l2, 0 ≤ e.2) :
    (calculate_conflict l1 l2 < 1 → massSum (dempster_combine Θ l1 l2) = 1) ∧
    (l1.length * l2.length ≤ 9998 →
      |massSum (yager_combine Θ l1 l2) - 1| ≤ eps6) := by
  have hΘne : Θ ≠ ∅ := Finset.nonempty_iff_ne_empty.mp hΘ
  have hsum : massSum (accumulate l1 l2).1 + (accumulate l1 l2).2 = 1 := by
    rw [massSum_accumulate, h1, h2, one_mul]
  have hnn := accumulate_nonneg l1 l2 hn1 hn2
  constructor
  · intro hK
    rw [calculate_conflict_eq_accumulate] at hK
    rw [dempster_combine]
    by_cases hfb : 1 - eps10 ≤ (accumulate l1 l2).2
    · simp only [hfb, if_pos]
      simp [massSum_cons, massSum_nil]
    · simp only [hfb, if_neg, not_false_iff]
      rw [massSum_map_div]
      have hK1 : massSum (accumulate l1 l2).1 = 1 - (accumulate l1 l2).2 := by
        linarith
      rw [hK1]
      have : (1 : ℚ) - (accumulate l1 l2).2 ≠ 0 := by linarith
      field_simp
  · intro hlen
    set a := accumulate l1 l2 with ha
    set c2 := addMass a.1 Θ a.2 with hc2def
    have hec2 : (∅ : FSet) ∉ keyList c2 := by
      intro h
      rcases (mem_keyList_addMass Θ ∅ a.2).mp h with hx | hx
      · exact hΘne hx.symm
      · exact accumulate_keys_ne_empty l1 l2 ∅ hx rfl
    have hc3 : setMass c2 ∅ 0 = c2 ++ [(∅, 0)] := setMass_of_not_mem 0 hec2
    have hy : yager_combine Θ l1 l2 =
        (c2 ++ [(∅, 0)]).filter fun e => decide (eps10 < e.2) || decide (e.1 = Θ) := by
      rw [yager_combine, ← ha, ← hc2def, hc3]
    have hsc2 : massSum c2 = 1 := by
      rw [hc2def, massSum_addMass]
      exact hsum
    have hsc3 : massSum (c2 ++ [(∅, 0)]) = 1 := by
      rw [massSum_append, hsc2]
      simp [massSum_cons, massSum_nil]
    have hnnc3 : ∀ e ∈ c2 ++ [(∅, 0)], 0 ≤ e.2 := by
      intro e he
      rcases List.mem_append.mp he with hx | hx
      · exact mass_nonneg_addMass hnn.1 hnn.2 e hx
      · have : e = ((∅ : FSet), (0 : ℚ)) := by simpa using hx
        simp [this]
    have hlenc3 : (c2 ++ [(∅, 0)]).length ≤ l1.length * l2.length + 2 := by
      rw [List.length_append]
      have hla : c2.length ≤ a.1.length + 1 := by
        rw [hc2def]; exact length_addMass a.1 Θ a.2
      have hlacc : a.1.length ≤ l1.length * l2.length := by
        rw [ha]; exact length_accumulate l1 l2
      simp only [List.length_cons, List.length_nil]
      omega
    set p : FSet × ℚ → Bool := fun e => decide (eps10 < e.2) || decide (e.1 = Θ) with hp
    have hdrop_le : ∀ e ∈ (c2 ++ [(∅, 0)]).filter (fun e => !(p e)), e.2 ≤ eps10 := by
      intro e he
      have := (List.mem_filter.mp he).2
      simp only [hp, Bool.not_or, Bool.and_eq_true, Bool.not_eq_true', decide_eq_false_iff_not,
        not_lt] at this
      exact this.1
    have hdrop_nonneg : 0 ≤ massSum ((c2 ++ [(∅, 0)]).filter fun e => !(p e)) :=
      massSum_nonneg_of _ fun e he => hnnc3 e (List.mem_filter.mp he).1
    have hdrop_len : ((c2 ++ [(∅, 0)]).filter fun e => !(p e)).length ≤
        l1.length * l2.length + 2 :=
      le_trans (List.length_filter_le _ _) hlenc3
    have hdrop_bound : massSum ((c2 ++ [(∅, 0)]).filter fun e => !(p e)) ≤ 10000 * eps10 := by
      refine le_trans (massSum_le_length_mul _ eps10 hdrop_le) ?_
      have hcast : (((c2 ++ [(∅, 0)]).filter fun e => !(p e)).length : ℚ) ≤ 10000 := by
        have : ((c2 ++ [(∅, 0)]).filter fun e => !(p e)).length ≤ 10000 := by omega
        exact_mod_cast this
      have hpos : (0 : ℚ) ≤ eps10 := by norm_num [eps10]
      nlinarith
    have hres : massSum (yager_combine Θ l1 l2) =
        1 - massSum ((c2 ++ [(∅, 0)]).filter fun e => !(p e)) := by
      rw [hy]
      have := massSum_filter_split p (c2 ++ [(∅, 0)])
      rw [hsc3] at this
      linarith
    rw [hres]
    have : (10000 : ℚ) * eps10 = eps6 := by norm_num [eps10, eps6]
    rw [abs_le]
    constructor <;> nlinarith

theorem list_map_const_sum (l : List ℕ) (c : ℚ) : (l.map fun _ => c).sum = l.length * c := by
  induction l with
  | nil => simp
  | cons x t ih =>
    simp only [List.map_cons, List.sum_cons, ih, List.length_cons]
    push_cast
    ring

theorem enc_subset (i : ℕ) : enc i ⊆ theta14 := by
  rw [enc, theta14]
  exact Finset.filter_subset _ _

theorem enc_ne_empty {i : ℕ} (h : i + 1 < 2 ^ 14) : enc i ≠ ∅ := by
  intro hc
  have hall : ∀ b, (i + 1).testBit b = false := by
    intro b
    by_cases hb : b < 14
    · by_contra hbit
      have hmem : b ∈ enc i := by
        rw [enc]
        exact Finset.mem_filter.mpr ⟨Finset.mem_range.mpr hb, by simpa using hbit⟩
      rw [hc] at hmem
      exact absurd hmem (Finset.not_mem_empty b)
    · exact Nat.testBit_lt_two_pow (lt_of_lt_of_le h (Nat.pow_le_pow_right (by norm_num) (by omega)))
  have : i + 1 = 0 := Nat.eq_of_testBit_eq fun b => by rw [hall b, Nat.zero_testBit]
  omega

theorem enc_ne_theta {i : ℕ} (h : i + 1 < 2 ^ 14 - 1) : enc i ≠ theta14 := by
  intro hc
  have hall : ∀ b, (i + 1).testBit b = (2 ^ 14 - 1 : ℕ).testBit b := by
    intro b
    rw [Nat.testBit_two_pow_sub_one]
    by_cases hb : b < 14
    · have hmem : b ∈ enc i := by
        rw [hc, theta14]
        exact Finset.mem_range.mpr hb
      rw [enc] at hmem
      have := (Finset.mem_filter.mp hmem).2
      simp [hb, this]
    · have hfalse : (i + 1).testBit b = false :=
        Nat.testBit_lt_two_pow
          (lt_of_lt_of_le (show i + 1 < 2 ^ 14 by omega)
            (Nat.pow_le_pow_right (by norm_num) (by omega)))
      simp [hb, hfalse]
  have := Nat.eq_of_testBit_eq hall
  omega

theorem enc_inj {i j : ℕ} (hi : i + 1 < 2 ^ 14) (hj : j + 1 < 2 ^ 14) (h : enc i = enc j) :
    i = j := by
  have hall : ∀ b, (i + 1).testBit b = (j + 1).testBit b := by
    intro b
    by_cases hb : b < 14
    · have hmem : b ∈ enc i ↔ b ∈ enc j := by rw [h]
      rw [enc, enc, Finset.mem_filter, Finset.mem_filter] at hmem
      have hr : b ∈ Finset.range 14 := Finset.mem_range.mpr hb
      rcases hbit : (i + 1).testBit b
      · rcases hbit2 : (j + 1).testBit b
        · rfl
        · exact absurd (hmem.mpr ⟨hr, by simpa using hbit2⟩).2 (by simp [hbit])
      · exact (hmem.mp ⟨hr, by simpa using hbit⟩).2.symm
    · have h1 : (i + 1).testBit b = false :=
        Nat.testBit_lt_two_pow
          (lt_of_lt_of_le hi (Nat.pow_le_pow_right (by norm_num) (by omega)))
      have h2 : (j + 1).testBit b = false :=
        Nat.testBit_lt_two_pow
          (lt_of_lt_of_le hj (Nat.pow_le_pow_right (by norm_num) (by omega)))
      rw [h1, h2]
  have := Nat.eq_of_testBit_eq hall
  omega

theorem accumulate_single_theta (Θ : FSet) (l2 : BOE)
    (hsub : ∀ e ∈ l2, e.1 ⊆ Θ) (hne : ∀ e ∈ l2, e.1 ≠ ∅)
    (hdist : l2.Pairwise fun x y => x.1 ≠ y.1) :
    ∀ (acc : BOE) (c : ℚ), (∀ e ∈ l2, e.1 ∉ keyList acc) →
      (l2.map fun e2 => (((Θ, (1 : ℚ)) : FSet × ℚ), e2)).foldl combineStep (acc, c) =
        (acc ++ l2, c) := by
  induction l2 with
  | nil => intro acc c _; simp
  | cons e t ih =>
    intro acc c hfresh
    have hsub_e : e.1 ⊆ Θ := hsub e (by simp)
    have hinter : Θ ∩ e.1 = e.1 := Finset.inter_eq_right.mpr hsub_e
    have hne_e : e.1 ≠ ∅ := hne e (by simp)
    have hfresh_e : e.1 ∉ keyList acc := hfresh e (by simp)
    rw [List.map_cons, List.foldl_cons]
    have hstep : combineStep (acc, c) ((Θ, (1 : ℚ)), e) = (acc ++ [(e.1, e.2)], c) := by
      rw [combineStep]
      simp only [hinter, hne_e, if_neg, not_false_iff]
      rw [addMass_of_not_mem _ hfresh_e]
      simp
    rw [hstep]
    have hdist_t := (List.pairwise_cons.mp hdist).2
    have hhead := (List.pairwise_cons.mp hdist).1
    have := ih (fun x hx => hsub x (by simp [hx])) (fun x hx => hne x (by simp [hx])) hdist_t
      (acc ++ [(e.1, e.2)]) c ?_
    · rw [this]
      simp
    · intro x hx
      rw [keyList_append]
      intro hmem
      rcases List.mem_append.mp hmem with h1 | h1
      · exact hfresh x (by simp [hx]) h1
      · have : x.1 = e.1 := by simpa [keyList] using h1
        exact (hhead x hx).symm this

theorem bigBOE_sum : massSum bigBOE = 1 := by
  rw [bigBOE, massSum_cons]
  have : massSum ((List.range 10001).map fun i => ((enc i, (1 / 10 ^ 10 : ℚ)) : FSet × ℚ)) =
      10001 * (1 / 10 ^ 10 : ℚ) := by
    rw [massSum, List.map_map]
    have : (Prod.snd ∘ fun i => ((enc i, (1 / 10 ^ 10 : ℚ)) : FSet × ℚ)) =
        fun _ => (1 / 10 ^ 10 : ℚ) := rfl
    rw [this, list_map_const_sum, List.length_range]
    norm_num
  rw [this]
  norm_num

theorem bigBOE_pairwise : bigBOE.Pairwise fun x y => x.1 ≠ y.1 := by
  rw [bigBOE]
  refine List.pairwise_cons.mpr ⟨?_, ?_⟩
  · intro e he
    rcases List.mem_map.mp he with ⟨i, hi, rfl⟩
    have hi' : i < 10001 := List.mem_range.mp hi
    exact fun hc => enc_ne_theta (by omega) hc.symm
  · have hR : (List.range 10001).Pairwise fun i j => enc i ≠ enc j := by
      refine List.Pairwise.imp_of_mem ?_ (List.nodup_range 10001)
      intro i j hi hj hne hc
      exact hne (enc_inj (by have := List.mem_range.mp hi; omega)
        (by have := List.mem_range.mp hj; omega) hc)
    exact hR.map _ fun i j hij => by simpa using hij

theorem accumulate_oneTheta_bigBOE : accumulate oneTheta bigBOE = (bigBOE, 0) := by
  have hpl : pairList oneTheta bigBOE = bigBOE.map fun e2 => ((theta14, (1 : ℚ)), e2) := by
    rw [pairList, oneTheta]
    simp
  rw [accumulate, hpl]
  have := accumulate_single_theta theta14 bigBOE ?_ ?_ bigBOE_pairwise [] 0 ?_
  · simpa using this
  · intro e he
    rw [bigBOE] at he
    rcases List.mem_cons.mp he with rfl | he
    · exact Finset.Subset.refl _
    · rcases List.mem_map.mp he with ⟨i, _, rfl⟩
      exact enc_subset i
  · intro e he
    rw [bigBOE] at he
    rcases List.mem_cons.mp he with rfl | he
    · rw [theta14]
      decide
    · rcases List.mem_map.mp he with ⟨i, hi, rfl⟩
      exact enc_ne_empty (by have := List.mem_range.mp hi; omega)
  · intro e _
    simp [keyList]

/-- Counterexample to claim C1 as stated: `oneTheta` and `bigBOE` are
valid BOEs (masses in `[0,1]`, each summing to exactly 1, `K = 0`), yet
the Yager combination drops the 10001 focal elements of mass `1e-10`
(the `> 1e-10` filter) and its mass sum ends up `1.0001e-6` away from 1,
beyond the claimed `1e-6` tolerance. -/
theorem claim_C1_conservation_counterexample :
    massSum oneTheta = 1 ∧ massSum bigBOE = 1 ∧
    (∀ e ∈ oneTheta, 0 ≤ e.2 ∧ e.2 ≤ 1) ∧
    (∀ e ∈ bigBOE, 0 ≤ e.2 ∧ e.2 ≤ 1) ∧
    eps6 < |massSum (yager_combine theta14 oneTheta bigBOE) - 1| := by
  have hacc := accumulate_oneTheta_bigBOE
  have hacc1 : (accumulate oneTheta bigBOE).1 = bigBOE := by rw [hacc]
  have hacc2 : (accumulate oneTheta bigBOE).2 = 0 := by rw [hacc]
  have hΘne : (theta14 : FSet) ≠ ∅ := by rw [theta14]; decide
  have hc2 : addMass bigBOE theta14 0 = bigBOE := by
    rw [bigBOE]
    simp [addMass]
  have hnokey : (∅ : FSet) ∉ keyList bigBOE := by
    rw [bigBOE]
    intro h
    simp only [keyList, List.map_cons, List.mem_cons, List.map_map] at h
    rcases h with h | h
    · exact hΘne h.symm
    · rcases List.mem_map.mp h with ⟨i, hi, hei⟩
      have : enc i = ∅ := by simpa using hei
      exact enc_ne_empty (by have := List.mem_range.mp hi; omega) this
  have hset : setMass bigBOE ∅ 0 = bigBOE ++ [(∅, 0)] := setMass_of_not_mem 0 hnokey
  have hy : yager_combine theta14 oneTheta bigBOE =
      (bigBOE ++ [(∅, 0)]).filter
        fun e => decide (eps10 < e.2) || decide (e.1 = theta14) := by
    rw [yager_combine, hacc1, hacc2, hc2, hset]
  have hmapnil : (((List.range 10001).map fun i =>
      ((enc i, (1 / 10 ^ 10 : ℚ)) : FSet × ℚ)).filter
      fun e => decide (eps10 < e.2) || decide (e.1 = theta14)) = [] := by
    rw [List.filter_eq_nil_iff]
    intro e he
    rcases List.mem_map.mp he with ⟨i, hi, rfl⟩
    simp only [Bool.or_eq_true, decide_eq_true_eq, not_or]
    constructor
    · rw [eps10]
      exact lt_irrefl _
    · exact enc_ne_theta (by have := List.mem_range.mp hi; omega)
  have hempnil : (([((∅ : FSet), (0 : ℚ))]).filter
      fun e => decide (eps10 < e.2) || decide (e.1 = theta14)) = [] := by
    rw [List.filter_eq_nil_iff]
    intro e he
    have : e = ((∅ : FSet), (0 : ℚ)) := by simpa using he
    subst this
    simp only [Bool.or_eq_true, decide_eq_true_eq, not_or]
    constructor
    · rw [eps10]
      norm_num
    · exact fun hcon => hΘne hcon.symm
  have hhead : (decide (eps10 < ((1 : ℚ) - 10001 / 10 ^ 10)) ||
      decide ((theta14 : FSet) = theta14)) = true := by
    simp only [decide_eq_true_eq, Bool.or_eq_true]
    exact Or.inr trivial
  have hfil : (bigBOE ++ [(∅, 0)]).filter
      (fun e => decide (eps10 < e.2) || decide (e.1 = theta14)) =
      [(theta14, 1 - 10001 / 10 ^ 10)] := by
    rw [bigBOE, List.cons_append, List.filter_cons, if_pos hhead, List.filter_append,
      hmapnil, hempnil]
    rfl
  refine ⟨?_, bigBOE_sum, ?_, ?_, ?_⟩
  · rw [oneTheta]
    simp [massSum]
  · intro e he
    rw [oneTheta] at he
    have : e = ((theta14 : FSet), (1 : ℚ)) := by simpa using he
    subst this
    norm_num
  · intro e he
    rw [bigBOE] at he
    rcases List.mem_cons.mp he with rfl | he
    · constructor <;> norm_num
    · rcases List.mem_map.mp he with ⟨i, _, rfl⟩
      constructor <;> norm_num
  · rw [hy, hfil]
    have : massSum [((theta14 : FSet), (1 : ℚ) - 10001 / 10 ^ 10)] =
        1 - 10001 / 10 ^ 10 := by
      simp [massSum]
    rw [this, show ((1 : ℚ) - 10001 / 10 ^ 10) - 1 = -(10001 / 10 ^ 10) by ring, abs_neg,
      abs_of_nonneg (by norm_num : (0 : ℚ) ≤ 10001 / 10 ^ 10)]
    rw [eps6]
    norm_num

/-- Witness for the amended C1 at the worked example: both BOEs are valid,
the universe is non-empty, the conflict is below 1 and the size bound
holds, so Dempster conserves mass exactly and Yager within `1e-6`. -/
theorem claim_C1_conservation_amended_witness :
    (({0, 1} : FSet).Nonempty) ∧
    massSum [(({0} : FSet), (6/10 : ℚ)), ({0, 1}, 4/10)] = 1 ∧
    massSum [(({1} : FSet), (5/10 : ℚ)), ({0, 1}, 5/10)] = 1 ∧
    (calculate_conflict [({0}, 6/10), ({0, 1}, 4/10)] [({1}, 5/10), ({0, 1}, 5/10)] < 1 →
      massSum (dempster_combine {0, 1} [({0}, 6/10), ({0, 1}, 4/10)]
        [({1}, 5/10), ({0, 1}, 5/10)]) = 1) ∧
    ([(({0} : FSet), (6/10 : ℚ)), ({0, 1}, 4/10)].length *
        [(({1} : FSet), (5/10 : ℚ)), ({0, 1}, 5/10)].length ≤ 9998 →
      |massSum (yager_combine {0, 1} [({0}, 6/10), ({0, 1}, 4/10)]
        [({1}, 5/10), ({0, 1}, 5/10)]) - 1| ≤ eps6) := by
  have hne : (({0, 1} : FSet)).Nonempty := ⟨0, by decide⟩
  have h1 : massSum [(({0} : FSet), (6/10 : ℚ)), ({0, 1}, 4/10)] = 1 := by
    simp [massSum]
    norm_num
  have h2 : massSum [(({1} : FSet), (5/10 : ℚ)), ({0, 1}, 5/10)] = 1 := by
    simp [massSum]
    norm_num
  have hn1 : ∀ e ∈ [(({0} : FSet), (6/10 : ℚ)), ({0, 1}, 4/10)], 0 ≤ e.2 := by
    intro e he
    rcases List.mem_cons.mp he with rfl | he
    · norm_num
    · have : e = (({0, 1} : FSet), (4/10 : ℚ)) := by simpa using he
      subst this
      norm_num
  have hn2 : ∀ e ∈ [(({1} : FSet), (5/10 : ℚ)), ({0, 1}, 5/10)], 0 ≤ e.2 := by
    intro e he
    rcases List.mem_cons.mp he with rfl | he
    · norm_num
    · have : e = (({0, 1} : FSet), (5/10 : ℚ)) := by simpa using he
      subst this
      norm_num
  have := claim_C1_conservation_amended {0, 1} [({0}, 6/10), ({0, 1}, 4/10)]
    [({1}, 5/10), ({0, 1}, 5/10)] hne h1 h2 hn1 hn2
  exact ⟨hne, h1, h2, fun hc => this.1 hc, fun _ => this.2 (by norm_num)⟩

theorem massOf_eq_zero_of_not_mem {M : Type} [Zero M] {l : List (FSet × M)} {s : FSet}
    (h : s ∉ keyList l) : massOf l s = 0 := by
  induction l with
  | nil => rfl
  | cons e t ih =>
    have he : e.1 ≠ s := fun hk => h (by simp [keyList_cons, hk])
    have ht : s ∉ keyList t := fun hk => h (by simp [keyList_cons, hk])
    simp [massOf, he, ih ht]

theorem keyList_filter_subset {M : Type} (p : FSet × M → Bool) (l : List (FSet × M)) :
    ∀ s ∈ keyList (l.filter p), s ∈ keyList l := by
  intro s hs
  rcases List.mem_map.mp hs with ⟨e, he, rfl⟩
  exact List.mem_map.mpr ⟨e, List.mem_filter.mp he |>.1, rfl⟩

theorem massOf_filter (p : FSet × ℚ → Bool) (l : BOE) (hnd : (keyList l).Nodup) (s : FSet) :
    massOf (l.filter p) s = if p (s, massOf l s) = true then massOf l s else 0 := by
  induction l with
  | nil =>
    simp only [List.filter_nil]
    by_cases h : p (s, massOf ([] : BOE) s) = true <;> simp [h, massOf]
  | cons e t ih =>
    have hnd1 : e.1 ∉ keyList t := by
      rw [keyList_cons] at hnd
      exact (List.nodup_cons.mp hnd).1
    have hnd2 : (keyList t).Nodup := by
      rw [keyList_cons] at hnd
      exact (List.nodup_cons.mp hnd).2
    by_cases he : e.1 = s
    · subst he
      have hm : massOf (e :: t) e.1 = e.2 := by simp [massOf]
      rw [hm]
      have hpe : p (e.1, e.2) = p e := by rw [Prod.mk.eta]
      by_cases hp : p e = true
      · rw [List.filter_cons_of_pos hp]
        simp [massOf, hpe, hp]
      · rw [List.filter_cons_of_neg hp]
        have : massOf (List.filter p t) e.1 = 0 :=
          massOf_eq_zero_of_not_mem fun hc => hnd1 (keyList_filter_subset p t e.1 hc)
        rw [this]
        simp [hpe, hp]
    · have hm : massOf (e :: t) s = massOf t s := by simp [massOf, he]
      rw [hm]
      by_cases hp : p e = true
      · rw [List.filter_cons_of_pos hp]
        have : massOf (e :: List.filter p t) s = massOf (List.filter p t) s := by
          simp [massOf, he]
        rw [this, ih hnd2]
      · rw [List.filter_cons_of_neg hp, ih hnd2]

theorem massOf_addMass_zero (l : BOE) (k s : FSet) :
    massOf (addMass l k 0) s = massOf l s := by
  induction l with
  | nil =>
    by_cases h : k = s <;> simp [addMass, massOf, h]
  | cons e t ih =>
    by_cases he : e.1 = k
    · by_cases hs : k = s
      · subst hs
        simp [addMass, he, massOf]
      · simp [addMass, he, massOf, hs, he ▸ hs]
    · simp only [addMass, he, if_neg, not_false_iff]
      by_cases hs : e.1 = s
      · simp [massOf, hs]
      · simp [massOf, hs, ih]

theorem massOf_append_zero (l : BOE) (k s : FSet) :
    massOf (l ++ [(k, 0)]) s = massOf l s := by
  induction l with
  | nil =>
    by_cases h : k = s <;> simp [massOf, h]
  | cons e t ih =>
    by_cases hs : e.1 = s <;> simp [massOf, hs, ih]

theorem keyList_addMass_of_mem {M : Type} [Add M] {l : List (FSet × M)} {k : FSet} (v : M)
    (h : k ∈ keyList l) : keyList (addMass l k v) = keyList l := by
  induction l with
  | nil => simp [keyList_nil] at h
  | cons e t ih =>
    by_cases he : e.1 = k
    · simp [addMass, he, keyList_cons]
    · have ht : k ∈ keyList t := by
        rcases List.mem_cons.mp (by simpa [keyList_cons] using h) with h1 | h1
        · exact absurd h1.symm he
        · exact h1
      simp [addMass, he, keyList_cons, ih ht]

theorem keyList_addMass_nodup {M : Type} [Add M] {l : List (FSet × M)} (k : FSet) (v : M)
    (h : (keyList l).Nodup) : (keyList (addMass l k v)).Nodup := by
  by_cases hk : k ∈ keyList l
  · rw [keyList_addMass_of_mem v hk]
    exact h
  · rw [addMass_of_not_mem v hk, keyList_append]
    simp only [keyList_cons, keyList_nil]
    exact List.Nodup.append h (List.nodup_singleton k) (by
      intro a ha hb
      have : a = k := by simpa using hb
      exact hk (this ▸ ha))

theorem foldl_combineStep_nodup (ps : List ((FSet × ℚ) × (FSet × ℚ))) :
    ∀ acc : BOE × ℚ, (keyList acc.1).Nodup →
      (keyList (ps.foldl combineStep acc).1).Nodup := by
  induction ps with
  | nil => intro acc h; exact h
  | cons p t ih =>
    intro acc h
    rw [List.foldl_cons]
    refine ih (combineStep acc p) ?_
    unfold combineStep
    by_cases hp : p.1.1 ∩ p.2.1 = ∅
    · simpa [hp] using h
    · simp only [hp, if_neg, not_false_iff]
      exact keyList_addMass_nodup _ _ h

theorem accumulate_keys_nodup (l1 l2 : BOE) : (keyList (accumulate l1 l2).1).Nodup :=
  foldl_combineStep_nodup (pairList l1 l2) ([], 0) (by simp [keyList_nil])

theorem map_div_one (l : BOE) : (l.map fun e => (e.1, e.2 / (1 - 0))) = l := by
  induction l with
  | nil => rfl
  | cons e t ih => simp [ih]

theorem dempster_combine_of_no_conflict (Θ : FSet) (l1 l2 : BOE)
    (hK : calculate_conflict l1 l2 = 0) :
    dempster_combine Θ l1 l2 = (accumulate l1 l2).1 := by
  rw [calculate_conflict_eq_accumulate] at hK
  rw [dempster_combine, hK]
  rw [if_neg (by norm_num [eps10])]
  exact map_div_one _

/-- Claim C5 (amended): at zero conflict, Dempster is the raw intersection
dict and Yager agrees with it on every focal element that either carries
mass above `1e-10` or is `Θ`; Yager assigns zero to all other sets (it
silently drops non-`Θ` focal elements of mass `≤ 1e-10`, and may carry
`Θ` with mass 0 even when Dempster omits it — so the two results are not
element-wise identical dicts in general). -/
theorem claim_C5_nonconflict_amended (Θ : FSet) (l1 l2 : BOE)
    (hΘ : Θ.Nonempty) (hK : calculate_conflict l1 l2 = 0) :
    ∀ s : FSet,
      massOf (yager_combine Θ l1 l2) s =
        if eps10 < massOf (dempster_combine Θ l1 l2) s ∨ s = Θ then
          massOf (dempster_combine Θ l1 l2) s
        else 0 := by
  intro s
  have hΘne : Θ ≠ ∅ := Finset.nonempty_iff_ne_empty.mp hΘ
  have hKa : (accumulate l1 l2).2 = 0 := by
    rw [← calculate_conflict_eq_accumulate, hK]
  have hd := dempster_combine_of_no_conflict Θ l1 l2 hK
  set a := accumulate l1 l2 with ha
  set c2 := addMass a.1 Θ a.2 with hc2def
  have hec2 : (∅ : FSet) ∉ keyList c2 := by
    intro h
    rcases (mem_keyList_addMass Θ ∅ a.2).mp h with hx | hx
    · exact hΘne hx.symm
    · exact accumulate_keys_ne_empty l1 l2 ∅ hx rfl
  have hc3 : setMass c2 ∅ 0 = c2 ++ [(∅, 0)] := setMass_of_not_mem 0 hec2
  have hy : yager_combine Θ l1 l2 =
      (c2 ++ [(∅, 0)]).filter fun e => decide (eps10 < e.2) || decide (e.1 = Θ) := by
    rw [yager_combine, ← ha, ← hc2def, hc3]
  have hnd2 : (keyList c2).Nodup := by
    rw [hc2def]
    exact keyList_addMass_nodup Θ a.2 (accumulate_keys_nodup l1 l2)
  have hnd3 : (keyList (c2 ++ [(∅, 0)])).Nodup := by
    rw [keyList_append]
    simp only [keyList_cons, keyList_nil]
    exact List.Nodup.append hnd2 (List.nodup_singleton ∅) (by
      intro x hx hb
      have : x = ∅ := by simpa using hb
      exact hec2 (this ▸ hx))
  have hval : massOf (c2 ++ [(∅, 0)]) s = massOf (dempster_combine Θ l1 l2) s := by
    rw [massOf_append_zero, hc2def, hKa, massOf_addMass_zero, hd]
  rw [hy, massOf_filter _ _ hnd3 s, hval]
  by_cases hcond : eps10 < massOf (dempster_combine Θ l1 l2) s ∨ s = Θ
  · rw [if_pos ?_, if_pos hcond]
    simp only [Bool.or_eq_true, decide_eq_true_eq]
    exact hcond
  · rw [if_neg ?_, if_neg hcond]
    simp only [Bool.or_eq_true, decide_eq_true_eq]
    exact hcond

/-- Counterexample to claim C5 as stated: at conflict `K = 0`, with
`m1 = {{A}: 1e-10, Θ: 1 - 1e-10}` and `m2 = {Θ: 1}` over `{A, B}`,
Dempster keeps the focal element `{A}` with mass `1e-10` while Yager
drops it (mass 0): the two combinations do not return the same focal
elements with the same masses. -/
theorem claim_C5_nonconflict_counterexample :
    calculate_conflict [({0}, 1/10^10), ({0, 1}, 1 - 1/10^10)] [({0, 1}, 1)] = 0 ∧
    massOf (dempster_combine {0, 1} [({0}, 1/10^10), ({0, 1}, 1 - 1/10^10)]
      [({0, 1}, 1)]) {0} = 1/10^10 ∧
    massOf (yager_combine {0, 1} [({0}, 1/10^10), ({0, 1}, 1 - 1/10^10)]
      [({0, 1}, 1)]) {0} = 0 := by
  have e2 : ({0} ∩ {0, 1} : Finset ℕ) = {0} := by decide
  have e4 : ({0, 1} ∩ {0, 1} : Finset ℕ) = {0, 1} := by decide
  have n1 : ({0} : Finset ℕ) ≠ ∅ := by decide
  have n3 : ({0, 1} : Finset ℕ) ≠ ∅ := by decide
  have d2 : ({0} : Finset ℕ) ≠ {0, 1} := by decide
  have hacc : accumulate [({0}, 1/10^10), ({0, 1}, 1 - 1/10^10)] [({0, 1}, 1)] =
      ([({0}, 1/10^10), ({0, 1}, 1 - 1/10^10)], 0) := by
    simp only [accumulate, pairList, List.flatMap_cons, List.map_cons, List.map_nil,
      List.flatMap_nil, List.append_nil, List.cons_append, List.nil_append,
      List.foldl_cons, List.foldl_nil, combineStep, e2, e4]
    norm_num [n1, n3, d2, addMass]
  have hacc1 : (accumulate [({0}, 1/10^10), ({0, 1}, 1 - 1/10^10)] [({0, 1}, 1)]).1 =
      [({0}, 1/10^10), ({0, 1}, 1 - 1/10^10)] := by rw [hacc]
  have hacc2 : (accumulate [({0}, 1/10^10), ({0, 1}, 1 - 1/10^10)] [({0, 1}, 1)]).2 = 0 := by
    rw [hacc]
  refine ⟨?_, ?_, ?_⟩
  · rw [calculate_conflict_eq_accumulate, hacc2]
  · rw [dempster_combine, hacc1, hacc2, if_neg (by norm_num [eps10])]
    simp only [List.map_cons, List.map_nil]
    norm_num [massOf, d2]
  · rw [yager_combine, hacc1, hacc2]
    have hadd : addMass [(({0} : FSet), (1/10^10 : ℚ)), ({0, 1}, 1 - 1/10^10)] {0, 1} 0 =
        [({0}, 1/10^10), ({0, 1}, 1 - 1/10^10 + 0)] := by
      norm_num [addMass, d2]
    rw [hadd]
    have hset : setMass [(({0} : FSet), (1/10^10 : ℚ)), ({0, 1}, 1 - 1/10^10 + 0)] ∅ 0 =
        [({0}, 1/10^10), ({0, 1}, 1 - 1/10^10 + 0), (∅, 0)] := by
      norm_num [setMass, n1, n3]
    rw [hset]
    have hf1 : (decide (eps10 < (1/10^10 : ℚ)) || decide (({0} : FSet) = {0, 1})) = false := by
      simp only [Bool.or_eq_false_iff, decide_eq_false_iff_not]
      exact ⟨by rw [eps10]; exact lt_irrefl _, d2⟩
    have hf2 : (decide (eps10 < ((1 : ℚ) - 1/10^10 + 0)) ||
        decide (({0, 1} : FSet) = {0, 1})) = true := by
      simp only [Bool.or_eq_true, decide_eq_true_eq]
      exact Or.inr trivial
    have hf3 : (decide (eps10 < (0 : ℚ)) || decide ((∅ : FSet) = {0, 1})) = false := by
      simp only [Bool.or_eq_false_iff, decide_eq_false_iff_not]
      exact ⟨by rw [eps10]; norm_num, Ne.symm n3⟩
    rw [List.filter_cons, if_neg (by rw [hf1]; exact Bool.false_ne_true),
      List.filter_cons, if_pos hf2, List.filter_cons, if_neg (by rw [hf3]; exact Bool.false_ne_true),
      List.filter_nil]
    norm_num [massOf, Ne.symm d2]

/-- Witness for the amended C5 at a conflict-free instance: `m1 = {{A}: 0.5,
Θ: 0.5}`, `m2 = {Θ: 1}` over `{A, B}`; the hypotheses hold and the
conclusion is instantiated at the focal element `{A}`. -/
theorem claim_C5_nonconflict_amended_witness :
    (({0, 1} : FSet).Nonempty) ∧
    calculate_conflict [({0}, 1/2), ({0, 1}, 1/2)] [({0, 1}, 1)] = 0 ∧
    massOf (yager_combine {0, 1} [({0}, 1/2), ({0, 1}, 1/2)] [({0, 1}, 1)]) {0} =
      if eps10 < massOf (dempster_combine {0, 1} [({0}, 1/2), ({0, 1}, 1/2)]
          [({0, 1}, 1)]) {0} ∨ ({0} : FSet) = {0, 1} then
        massOf (dempster_combine {0, 1} [({0}, 1/2), ({0, 1}, 1/2)] [({0, 1}, 1)]) {0}
      else 0 := by
  have e2 : ({0} ∩ {0, 1} : Finset ℕ) = {0} := by decide
  have e4 : ({0, 1} ∩ {0, 1} : Finset ℕ) = {0, 1} := by decide
  have n1 : ({0} : Finset ℕ) ≠ ∅ := by decide
  have d2 : ({0} : Finset ℕ) ≠ {0, 1} := by decide
  have hne : (({0, 1} : FSet)).Nonempty := ⟨0, by decide⟩
  have hK : calculate_conflict [({0}, 1/2), ({0, 1}, 1/2)] [({0, 1}, 1)] = 0 := by
    simp only [calculate_conflict, pairList, List.flatMap_cons, List.map_cons, List.map_nil,
      List.flatMap_nil, List.append_nil, List.cons_append, List.nil_append,
      List.foldl_cons, List.foldl_nil, e2, e4]
    norm_num [n1, d2]
  exact ⟨hne, hK,
    claim_C5_nonconflict_amended {0, 1} [({0}, 1/2), ({0, 1}, 1/2)] [({0, 1}, 1)] hne hK {0}⟩

theorem le_foldl_max (l : List ℚ) (a : ℚ) : a ≤ l.foldl max a := by
  induction l generalizing a with
  | nil => exact le_refl a
  | cons x t ih => exact le_trans (le_max_left a x) (ih (max a x))

theorem mem_le_foldl_max {l : List ℚ} {y : ℚ} (h : y ∈ l) (a : ℚ) : y ≤ l.foldl max a := by
  induction l generalizing a with
  | nil => simp at h
  | cons x t ih =>
    rcases List.mem_cons.mp h with rfl | h
    · exact le_trans (le_max_right a y) (le_foldl_max t (max a y))
    · exact ih h (max a x)

theorem foldl_max_mem (l : List ℚ) (a : ℚ) : l.foldl max a = a ∨ l.foldl max a ∈ l := by
  induction l generalizing a with
  | nil => exact Or.inl rfl
  | cons x t ih =>
    rcases ih (max a x) with h | h
    · rcases max_choice a x with hm | hm
      · exact Or.inl (by rw [List.foldl_cons, h, hm])
      · exact Or.inr (by rw [List.foldl_cons, h, hm]; exact List.mem_cons_self x t)
    · exact Or.inr (List.mem_cons_of_mem x h)

/-- Claim C6 (amended): with at least one expert and validated weights in
`[0,1]`: if all weights are 0 the operation errors (returns `none`);
otherwise the maximal weight `mx` is positive and attained, the result is
exactly `ω_k / mx` per expert, every rate lies in `[0,1]` (a zero-weight
expert gets rate 0, so `(0,1]` fails in general), and at least one rate
is exactly 1. -/
theorem claim_C6_discount_rates_amended (w : ℕ × ℚ) (t : List (ℕ × ℚ))
    (hw : ∀ e ∈ w :: t, 0 ≤ e.2 ∧ e.2 ≤ 1) :
    ((∀ e ∈ w :: t, e.2 = 0) → calculate_discount_rates (w :: t) = none) ∧
    ((∃ e ∈ w :: t, e.2 ≠ 0) →
      calculate_discount_rates (w :: t) =
        some ((w :: t).map fun e => (e.1, e.2 / (t.map Prod.snd).foldl max w.2)) ∧
      (∀ r ∈ (w :: t).map fun e => (e.1, e.2 / (t.map Prod.snd).foldl max w.2),
        0 ≤ r.2 ∧ r.2 ≤ 1) ∧
      (∃ r ∈ (w :: t).map fun e => (e.1, e.2 / (t.map Prod.snd).foldl max w.2),
        r.2 = 1)) := by
  set mx : ℚ := (t.map Prod.snd).foldl max w.2 with hmx
  have hup : ∀ e ∈ w :: t, e.2 ≤ mx := by
    intro e he
    rcases List.mem_cons.mp he with rfl | he
    · exact le_foldl_max _ _
    · exact mem_le_foldl_max (List.mem_map.mpr ⟨e, he, rfl⟩) _
  have hmem : ∃ e ∈ w :: t, e.2 = mx := by
    rcases foldl_max_mem (t.map Prod.snd) w.2 with h | h
    · exact ⟨w, List.mem_cons_self w t, h.symm⟩
    · rcases List.mem_map.mp h with ⟨e, he, hev⟩
      exact ⟨e, List.mem_cons_of_mem w he, hev⟩
  constructor
  · intro hzero
    have hmx0 : mx = 0 := by
      rcases hmem with ⟨e, he, hev⟩
      rw [← hev]
      exact hzero e he
    simp [calculate_discount_rates, ← hmx, hmx0]
  · intro hex
    have hmxpos : 0 < mx := by
      rcases hex with ⟨e, he, hev⟩
      have h1 : 0 ≤ e.2 := (hw e he).1
      have h2 : e.2 ≤ mx := hup e he
      rcases lt_or_eq_of_le h1 with h3 | h3
      · exact lt_of_lt_of_le h3 h2
      · exact absurd h3.symm hev
    have hmxne : mx ≠ 0 := ne_of_gt hmxpos
    refine ⟨?_, ?_, ?_⟩
    · simp [calculate_discount_rates, ← hmx, hmxne]
    · intro r hr
      rcases List.mem_map.mp hr with ⟨e, he, rfl⟩
      constructor
      · exact div_nonneg (hw e he).1 (le_of_lt hmxpos)
      · exact (div_le_one hmxpos).mpr (hup e he)
    · rcases hmem with ⟨e, he, hev⟩
      refine ⟨(e.1, e.2 / mx), List.mem_map.mpr ⟨e, he, rfl⟩, ?_⟩
      simp only [hev]
      exact div_self hmxne

/-- Counterexample to claim C6 as stated: with validated weights
`ω = 0.5` and `ω = 0`, the produced rates are `1` and `0`; the rate `0`
is not in the claimed interval `(0, 1]`. -/
theorem claim_C6_discount_rates_counterexample :
    calculate_discount_rates [(0, 1/2), (1, 0)] = some [(0, 1), (1, 0)] ∧
    ((1 : ℕ), (0 : ℚ)) ∈ [((0 : ℕ), (1 : ℚ)), (1, 0)] ∧ ¬(0 < (0 : ℚ)) := by
  refine ⟨?_, by simp, by norm_num⟩
  have hmax : ([(0 : ℚ)]).foldl max (1/2) = 1/2 := by
    simp only [List.foldl_cons, List.foldl_nil]
    rw [max_eq_left (by norm_num)]
  simp only [calculate_discount_rates, List.map_cons, List.map_nil, hmax]
  norm_num

/-- Witness for the amended C6 with weights `0.5` and `1`: the rates are
`0.5` and `1`, all in `[0,1]` with one rate exactly 1. -/
theorem claim_C6_discount_rates_amended_witness :
    (∀ e ∈ [((0 : ℕ), (1/2 : ℚ)), (1, 1)], 0 ≤ e.2 ∧ e.2 ≤ 1) ∧
    (∃ e ∈ [((0 : ℕ), (1/2 : ℚ)), (1, 1)], e.2 ≠ 0) ∧
    (calculate_discount_rates [((0 : ℕ), (1/2 : ℚ)), (1, 1)] =
        some ([((0 : ℕ), (1/2 : ℚ)), (1, 1)].map fun e =>
          (e.1, e.2 / ([((1 : ℕ), (1 : ℚ))].map Prod.snd).foldl max (1/2))) ∧
      (∀ r ∈ [((0 : ℕ), (1/2 : ℚ)), (1, 1)].map fun e =>
          (e.1, e.2 / ([((1 : ℕ), (1 : ℚ))].map Prod.snd).foldl max (1/2)),
        0 ≤ r.2 ∧ r.2 ≤ 1) ∧
      (∃ r ∈ [((0 : ℕ), (1/2 : ℚ)), (1, 1)].map fun e =>
          (e.1, e.2 / ([((1 : ℕ), (1 : ℚ))].map Prod.snd).foldl max (1/2)),
        r.2 = 1)) := by
  have hw : ∀ e ∈ [((0 : ℕ), (1/2 : ℚ)), (1, 1)], 0 ≤ e.2 ∧ e.2 ≤ 1 := by
    intro e he
    rcases List.mem_cons.mp he with rfl | he
    · norm_num
    · have : e = ((1 : ℕ), (1 : ℚ)) := by simpa using he
      subst this
      norm_num
  have hex : ∃ e ∈ [((0 : ℕ), (1/2 : ℚ)), (1, 1)], e.2 ≠ 0 :=
    ⟨((0 : ℕ), (1/2 : ℚ)), by simp, by norm_num⟩
  exact ⟨hw, hex,
    (claim_C6_discount_rates_amended ((0 : ℕ), (1/2 : ℚ)) [(1, 1)] hw).2 hex⟩

theorem mem_combinations {α : Type} :
    ∀ (k : ℕ) (l s : List α), s ∈ combinations k l ↔ s.Sublist l ∧ s.length = k
  | 0, l, s => by
    simp only [combinations, List.mem_singleton]
    constructor
    · rintro rfl
      exact ⟨List.nil_sublist l, rfl⟩
    · rintro ⟨_, hlen⟩
      exact List.eq_nil_of_length_eq_zero hlen
  | k + 1, [], s => by
    simp only [combinations, List.not_mem_nil, false_iff, not_and]
    intro hs
    rw [List.sublist_nil.mp hs]
    simp
  | k + 1, x :: xs, s => by
    simp only [combinations, List.mem_append, List.mem_map]
    constructor
    · rintro (⟨t, ht, rfl⟩ | h)
      · rcases (mem_combinations k xs t).mp ht with ⟨hsub, hlen⟩
        exact ⟨hsub.cons₂ x, by simp [hlen]⟩
      · rcases (mem_combinations (k + 1) xs s).mp h with ⟨hsub, hlen⟩
        exact ⟨hsub.cons x, hlen⟩
    · rintro ⟨hsub, hlen⟩
      cases hsub with
      | cons _ h => exact Or.inr ((mem_combinations (k + 1) xs s).mpr ⟨h, hlen⟩)
      | cons₂ _ h =>
        rename_i t
        exact Or.inl ⟨t, (mem_combinations k xs t).mpr ⟨h, by simpa using hlen⟩, rfl⟩

theorem mem_generate_all_subsets (alts : List ℕ) (s : List ℕ) :
    s ∈ generate_all_subsets alts ↔ s.Sublist alts ∧ 1 ≤ s.length := by
  rw [generate_all_subsets, List.mem_flatMap]
  constructor
  · rintro ⟨size, hsize, hs⟩
    rcases (mem_combinations (size + 1) alts s).mp hs with ⟨hsub, hlen⟩
    exact ⟨hsub, by omega⟩
  · rintro ⟨hsub, hlen⟩
    refine ⟨s.length - 1, ?_, (mem_combinations _ alts s).mpr ⟨hsub, by omega⟩⟩
    rw [List.mem_range]
    have := hsub.length_le
    omega

/-- Claim C8 (amended): `calculate_belief_plausibility` computes Belief
and Plausibility over the full subset lattice — its keys are exactly the
non-empty subsets of the alternative universe, singletons included — not
only the singletons. -/
theorem claim_C8_lattice_amended (boe : BOE) (alts : List ℕ) (S : FSet) :
    S ∈ (calculate_belief_plausibility boe alts).map Prod.fst ↔
      S ⊆ alts.toFinset ∧ S ≠ ∅ := by
  rw [calculate_belief_plausibility, List.map_map]
  have hcomp : (Prod.fst ∘ fun s : List ℕ =>
      ((s.toFinset : FSet),
        (calculate_belief_for_subset boe s.toFinset,
         calculate_plausibility_for_subset boe s.toFinset))) =
      fun s : List ℕ => (s.toFinset : FSet) := rfl
  rw [hcomp, List.mem_map]
  constructor
  · rintro ⟨s, hs, rfl⟩
    rcases (mem_generate_all_subsets alts s).mp hs with ⟨hsub, hlen⟩
    constructor
    · intro x hx
      rw [List.mem_toFinset] at hx ⊢
      exact hsub.subset hx
    · rcases s with _ | ⟨y, t⟩
      · simp at hlen
      · intro hc
        have : y ∈ (y :: t).toFinset := by simp
        rw [hc] at this
        exact absurd this (Finset.not_mem_empty y)
  · rintro ⟨hsub, hne⟩
    refine ⟨alts.filter fun x => decide (x ∈ S), ?_, ?_⟩
    · rw [mem_generate_all_subsets]
      refine ⟨List.filter_sublist _, ?_⟩
      rcases Finset.nonempty_iff_ne_empty.mpr hne with ⟨x, hx⟩
      have hxa : x ∈ alts := by
        have := hsub hx
        rwa [List.mem_toFinset] at this
      have hxf : x ∈ alts.filter fun x => decide (x ∈ S) :=
        List.mem_filter.mpr ⟨hxa, by simpa using hx⟩
      have hpos := List.length_pos.mpr (List.ne_nil_of_mem hxf)
      omega
    · ext x
      rw [List.mem_toFinset, List.mem_filter]
      constructor
      · rintro ⟨_, hx⟩
        simpa using hx
      · intro hx
        refine ⟨?_, by simpa using hx⟩
        have := hsub hx
        rwa [List.mem_toFinset] at this

/-- Counterexample to claim C8 as stated: on universe `{A, B}` the
computed Belief/Plausibility map is keyed by all three non-empty subsets
`{A}, {B}, {A, B}` — the two-element set `{A, B}` is not a singleton, so
the calculator does not restrict itself to singletons. -/
theorem claim_C8_lattice_counterexample :
    (calculate_belief_plausibility [({0, 1}, 1)] [0, 1]).map Prod.fst =
      [{0}, {1}, {0, 1}] ∧ ({0, 1} : FSet).card ≠ 1 := by
  constructor
  · rw [calculate_belief_plausibility, List.map_map]
    have hcomp : (Prod.fst ∘ fun s : List ℕ =>
        ((s.toFinset : FSet),
          (calculate_belief_for_subset [({0, 1}, 1)] s.toFinset,
           calculate_plausibility_for_subset [({0, 1}, 1)] s.toFinset))) =
        fun s : List ℕ => (s.toFinset : FSet) := rfl
    rw [hcomp]
    decide
  · decide

theorem sublist_pair_of_mem {α : Type} {l : List α} {x y : α}
    (hx : x ∈ l) (hy : y ∈ l) (hne : x ≠ y) :
    [x, y].Sublist l ∨ [y, x].Sublist l := by
  induction l with
  | nil => simp at hx
  | cons a t ih =>
    rcases List.mem_cons.mp hx with rfl | hxt
    · rcases List.mem_cons.mp hy with rfl | hyt
      · exact absurd rfl hne
      · exact Or.inl (((List.singleton_sublist).mpr hyt).cons₂ x)
    · rcases List.mem_cons.mp hy with rfl | hyt
      · exact Or.inr (((List.singleton_sublist).mpr hxt).cons₂ y)
      · rcases ih hxt hyt with h | h
        · exact Or.inl (h.cons a)
        · exact Or.inr (h.cons a)

theorem not_both_pair_sublist {α : Type} {l : List α} {x y : α}
    (hnd : l.Nodup) (h1 : [x, y].Sublist l) (h2 : [y, x].Sublist l) : False := by
  induction l with
  | nil => simp at h1
  | cons a t ih =>
    have hand : a ∉ t := (List.nodup_cons.mp hnd).1
    have hndt : t.Nodup := (List.nodup_cons.mp hnd).2
    cases h1 with
    | cons _ h1' =>
      cases h2 with
      | cons _ h2' => exact ih hndt h1' h2'
      | cons₂ _ h2' =>
        have hyt : y ∈ t := h1'.subset (by simp)
        exact hand hyt
    | cons₂ _ h1' =>
      cases h2 with
      | cons _ h2' =>
        have hxt : x ∈ t := h2'.subset (by simp)
        exact hand hxt
      | cons₂ _ h2' =>
        have hxt : x ∈ t := h2'.subset (by simp)
        exact hand hxt

theorem scoreList_pairwise (alts : List ℕ) (boe : BOE) (γ : ℚ) :
    (scoreList alts boe γ).Pairwise fun x y => x.1 < y.1 := by
  rw [scoreList, List.pairwise_map]
  exact Finset.sort_sorted_lt alts.toFinset

theorem scoreList_nodup (alts : List ℕ) (boe : BOE) (γ : ℚ) :
    (scoreList alts boe γ).Nodup := by
  refine (scoreList_pairwise alts boe γ).imp ?_
  intro a b hab hc
  rw [hc] at hab
  exact lt_irrefl _ hab

/-- Claim C7 (amended): the ranking is a permutation of the score list
built over the **sorted de-duplicated** alternative labels, ordered by
score descending with ties broken by **ascending label order** (the sort
is stable but iterates `sorted(set(alternatives))`, not the original
alternative ordering); being a pure function of the group BOE and `γ`, a
re-run yields the identical ordering. -/
theorem claim_C7_ranking_amended (alts : List ℕ) (boe : BOE) (γ : ℚ) :
    (rank_alternatives alts boe γ).Perm (scoreList alts boe γ) ∧
    (rank_alternatives alts boe γ).Pairwise
      fun x y => y.2 ≤ x.2 ∧ (x.2 = y.2 → x.1 < y.1) := by
  have htrans : ∀ a b c : ℕ × ℚ, (fun x y : ℕ × ℚ => decide (y.2 ≤ x.2)) a b →
      (fun x y : ℕ × ℚ => decide (y.2 ≤ x.2)) b c →
      (fun x y : ℕ × ℚ => decide (y.2 ≤ x.2)) a c := by
    intro a b c hab hbc
    simp only [decide_eq_true_eq] at hab hbc ⊢
    exact le_trans hbc hab
  have htotal : ∀ a b : ℕ × ℚ, (fun x y : ℕ × ℚ => decide (y.2 ≤ x.2)) a b ||
      (fun x y : ℕ × ℚ => decide (y.2 ≤ x.2)) b a := by
    intro a b
    simp only [Bool.or_eq_true, decide_eq_true_eq]
    exact le_total b.2 a.2
  have hperm : (rank_alternatives alts boe γ).Perm (scoreList alts boe γ) :=
    List.mergeSort_perm (scoreList alts boe γ) _
  have hsorted := List.sorted_mergeSort htrans htotal (scoreList alts boe γ)
  have hnd : (rank_alternatives alts boe γ).Nodup :=
    (scoreList_nodup alts boe γ).perm hperm.symm
  refine ⟨hperm, ?_⟩
  rw [List.pairwise_iff_forall_sublist]
  intro x y hsub
  have hle : decide (y.2 ≤ x.2) = true :=
    List.pairwise_iff_forall_sublist.mp hsorted hsub
  refine ⟨by simpa using hle, ?_⟩
  intro htie
  have hxy : x ≠ y := List.pairwise_iff_forall_sublist.mp hnd hsub
  have hx : x ∈ scoreList alts boe γ := hperm.subset (hsub.subset (by simp))
  have hy : y ∈ scoreList alts boe γ := hperm.subset (hsub.subset (by simp))
  have hname : x.1 ≠ y.1 := by
    intro hc
    exact hxy (Prod.ext hc htie)
  rcases lt_or_gt_of_ne hname with h | h
  · exact h
  · exfalso
    have hpair : [y, x].Sublist (scoreList alts boe γ) := by
      rcases sublist_pair_of_mem hx hy hxy with hs | hs
      · have := List.pairwise_iff_forall_sublist.mp (scoreList_pairwise alts boe γ) hs
        exact absurd this (by omega)
      · exact hs
    have hyx : (fun x y : ℕ × ℚ => decide (y.2 ≤ x.2)) y x = true := by
      simp only [decide_eq_true_eq]
      exact le_of_eq htie
    have hout : [y, x].Sublist (rank_alternatives alts boe γ) :=
      List.pair_sublist_mergeSort htrans htotal hyx hpair
    exact not_both_pair_sublist hnd hsub hout

/-- Counterexample to claim C7 as stated: alternatives supplied in the
original order `[B, A]` (labels `1, 0`) with the vacuous group BOE tie
every score at `0.5`; the ranker returns `A` (label 0) first — ties are
broken by sorted label order, not by the original alternative ordering
(which would put `B` first). -/
theorem claim_C7_ranking_counterexample :
    rank_alternatives [1, 0] [({0, 1}, 1)] (1/2) = [(0, 1/2), (1, 1/2)] ∧
    [((0 : ℕ), (1/2 : ℚ)), (1, 1/2)] ≠ [(1, 1/2), (0, 1/2)] := by
  constructor
  · have hsort : (([1, 0] : List ℕ).toFinset.sort (· ≤ ·)) = [0, 1] := by
      have h1 : ([1, 0] : List ℕ).toFinset = Finset.range 2 := by decide
      rw [h1, Finset.sort_range]
      rfl
    have hbel : ∀ a : ℕ, calculate_belief_for_subset [({0, 1}, 1)] {a} = 0 := by
      intro a
      rw [calculate_belief_for_subset]
      have hnotsub : ¬(({0, 1} : FSet) ⊆ {a}) := by
        intro hc
        have h0 := hc (by simp : (0 : ℕ) ∈ ({0, 1} : FSet))
        have h1 := hc (by simp : (1 : ℕ) ∈ ({0, 1} : FSet))
        rw [Finset.mem_singleton] at h0 h1
        omega
      rw [List.filter_cons, if_neg (by simpa using hnotsub), List.filter_nil]
      rfl
    have hpl0 : calculate_plausibility_for_subset [({0, 1}, 1)] {0} = 1 := by
      rw [calculate_plausibility_for_subset]
      rw [List.filter_cons, if_pos (by simp), List.filter_nil]
      simp
    have hpl1 : calculate_plausibility_for_subset [({0, 1}, 1)] {1} = 1 := by
      rw [calculate_plausibility_for_subset]
      rw [List.filter_cons, if_pos (by simp), List.filter_nil]
      simp
    have hsl : scoreList [1, 0] [({0, 1}, 1)] (1/2) = [(0, 1/2), (1, 1/2)] := by
      rw [scoreList, hsort]
      simp only [List.map_cons, List.map_nil, hbel, hpl0, hpl1]
      norm_num
    rw [rank_alternatives, hsl]
    refine List.mergeSort_of_sorted ?_
    refine List.pairwise_pair.mpr ?_
    simp only [decide_eq_true_eq]
    norm_num
  · intro hc
    injection hc with h1 h2
    injection h1 with h3 h4
    exact absurd h3 (by omega)

theorem list_sum_div_real (l : List ℝ) (c : ℝ) :
    (l.map fun x => x / c).sum = l.sum / c := by
  induction l with
  | nil => simp
  | cons x t ih => simp [ih, add_div]

/-- Claim C4: for an expert's preference groups and CPV on one criterion
(validated data: positive ranks, groups that are non-empty proper subsets
of `Θ`, non-negative CPV): a zero CPV or an empty preference set yields
the trivial BOE `{Θ: 1.0}`; otherwise with `d` groups of rank `a_i` the
BOE assigns `mass(group_i) = a_i·CPV / (Σ_j a_j·CPV + √d)` and
`mass(Θ) = √d / (Σ_j a_j·CPV + √d)`, and its mass sum is exactly 1, so
the renormalisation safety net (`|sum − 1| > 1e-4`) does not fire. -/
theorem claim_C4_criterion_boe (Θ : FSet) (prefs : List (FSet × ℕ)) (cpv : ℚ)
    (hgroups : ∀ p ∈ prefs, p.1 ≠ ∅ ∧ p.1 ≠ Θ)
    (hcpv : 0 ≤ cpv) :
    ((cpv = 0 ∨ prefs = []) → compute_criterion_boe Θ prefs cpv = [(Θ, 1)]) ∧
    (cpv ≠ 0 → prefs ≠ [] →
      compute_criterion_boe Θ prefs cpv =
        (prefs.map fun p => (p.1, (p.2 : ℝ) * (cpv : ℝ) /
            ((prefs.map fun q => (q.2 : ℝ) * (cpv : ℝ)).sum +
              Real.sqrt (prefs.length : ℕ)))) ++
          [(Θ, Real.sqrt (prefs.length : ℕ) /
            ((prefs.map fun q => (q.2 : ℝ) * (cpv : ℝ)).sum +
              Real.sqrt (prefs.length : ℕ)))] ∧
      massSum (compute_criterion_boe Θ prefs cpv) = 1) := by
  constructor
  · intro h
    rw [compute_criterion_boe, if_pos h]
  · intro hcpv0 hprefs0
    have h1 : ¬(cpv = 0 ∨ prefs = []) := by
      rintro (h | h)
      · exact hcpv0 h
      · exact hprefs0 h
    have hdpos : 0 < prefs.length := List.length_pos.mpr hprefs0
    have hsqpos : 0 < Real.sqrt (prefs.length : ℕ) := by
      apply Real.sqrt_pos.mpr
      exact_mod_cast hdpos
    have hSnn : 0 ≤ (prefs.map fun q => (q.2 : ℝ) * (cpv : ℝ)).sum := by
      apply List.sum_nonneg
      intro x hx
      rcases List.mem_map.mp hx with ⟨p, _, rfl⟩
      have : (0 : ℝ) ≤ (cpv : ℚ) := by exact_mod_cast hcpv
      positivity
    have hden : ((prefs.map fun q => (q.2 : ℝ) * (cpv : ℝ)).sum +
        Real.sqrt (prefs.length : ℕ)) ≠ 0 := by
      positivity
    have hfil : (prefs.filter fun p => decide (p.1 ≠ ∅)) = prefs := by
      rw [List.filter_eq_self]
      intro p hp
      simpa using (hgroups p hp).1
    have hΘnot : Θ ∉ keyList ((prefs.map fun p => (p.1, (p.2 : ℝ) * (cpv : ℝ) /
        ((prefs.map fun q => (q.2 : ℝ) * (cpv : ℝ)).sum +
          Real.sqrt (prefs.length : ℕ))))) := by
      intro hmem
      rw [keyList, List.map_map] at hmem
      rcases List.mem_map.mp hmem with ⟨p, hp, hpe⟩
      exact (hgroups p hp).2 (by simpa using hpe)
    have htotal : massSum ((prefs.map fun p => (p.1, (p.2 : ℝ) * (cpv : ℝ) /
        ((prefs.map fun q => (q.2 : ℝ) * (cpv : ℝ)).sum +
          Real.sqrt (prefs.length : ℕ)))) ++
        [(Θ, Real.sqrt (prefs.length : ℕ) /
          ((prefs.map fun q => (q.2 : ℝ) * (cpv : ℝ)).sum +
            Real.sqrt (prefs.length : ℕ)))]) = 1 := by
      have hmap : massSum (prefs.map fun p => (p.1, (p.2 : ℝ) * (cpv : ℝ) /
          ((prefs.map fun q => (q.2 : ℝ) * (cpv : ℝ)).sum +
            Real.sqrt (prefs.length : ℕ)))) =
          ((prefs.map fun q => (q.2 : ℝ) * (cpv : ℝ)).sum) /
            ((prefs.map fun q => (q.2 : ℝ) * (cpv : ℝ)).sum +
              Real.sqrt (prefs.length : ℕ)) := by
        rw [massSum, List.map_map, ← list_sum_div_real, List.map_map]
        rfl
      simp only [massSum_append, massSum_cons, massSum_nil, add_zero, hmap]
      rw [div_add_div_same, div_self hden]
    rw [compute_criterion_boe, if_neg h1]
    dsimp only
    rw [if_neg hden, hfil, setMass_of_not_mem _ hΘnot, htotal]
    rw [if_neg (by norm_num)]
    exact ⟨rfl, htotal⟩

/-- Witness for C4 with one preference group `{A}` of rank 1, CPV 1 over
universe `{A, B}`: the hypotheses hold and the produced criterion BOE
sums to exactly 1. -/
theorem claim_C4_criterion_boe_witness :
    (∀ p ∈ [(({0} : FSet), (1 : ℕ))], p.1 ≠ ∅ ∧ p.1 ≠ ({0, 1} : FSet)) ∧
    (0 : ℚ) ≤ 1 ∧ (1 : ℚ) ≠ 0 ∧ [(({0} : FSet), (1 : ℕ))] ≠ [] ∧
    massSum (compute_criterion_boe {0, 1} [({0}, 1)] 1) = 1 := by
  have hg : ∀ p ∈ [(({0} : FSet), (1 : ℕ))], p.1 ≠ ∅ ∧ p.1 ≠ ({0, 1} : FSet) := by
    intro p hp
    have : p = (({0} : FSet), (1 : ℕ)) := by simpa using hp
    subst this
    exact ⟨by decide, by decide⟩
  refine ⟨hg, by norm_num, by norm_num, by simp, ?_⟩
  exact ((claim_C4_criterion_boe {0, 1} [({0}, 1)] 1 hg (by norm_num)).2
    (by norm_num) (by simp)).2
